/-
Verification development for the frame.dev Codex viewer.

This file gives a shallow embedding, in Lean 4, of the algorithmic parts of
the Codex knowledge-base viewer:

* the SQL-backed strand cache stub (an in-memory map keyed by path),
* the placeholder client-side search engine,
* the search/filter hook over the flat file list and the scope predicate
  shouldShowFile,
* the file-content fetch flow of the viewer (cache lookup, network fall
  through, error state),
* the branch-candidate loop of the GitHub tree fetcher (GraphQL with REST
  fallback per candidate branch),
* the remark transform that strips control-flag tokens from markdown text
  nodes,
* the knowledge-tree builder (modelled from the specification, since the
  module that implements it is not part of this repository snapshot).

Effectful TypeScript code is embedded as pure state-passing functions;
network and cache effects become explicit parameters (oracles) or explicit
state values.  JS strings are modelled by Lean `String`/`List Char`,
JS numbers that only ever hold sizes or counts by `Nat`.
-/
import Mathlib

/-! ### JS string primitives

`String.prototype.includes`, `toLowerCase`, and extension extraction are
modelled on `List Char` so that every operation is structurally recursive
and kernel-computable. -/

/-- JS `String.prototype.toLowerCase`, per-code-point lowering. -/
def jsToLower (s : String) : String := String.mk (s.data.map Char.toLower)

/-- `listStartsWith l p` holds when `p` is a prefix of `l` (char lists). -/
def listStartsWith : List Char → List Char → Bool
  | _, [] => true
  | [], _ :: _ => false
  | a :: l, b :: p => a = b && listStartsWith l p

/-- `listIncludes hay needle`: JS `hay.includes(needle)`, substring test. -/
def listIncludes : List Char → List Char → Bool
  | [], needle => needle.isEmpty
  | c :: t, needle => listStartsWith (c :: t) needle || listIncludes t needle

/-- JS `hay.includes(needle)` on `String`. -/
def jsIncludes (hay needle : String) : Bool := listIncludes hay.data needle.data

/-! ### The Codex strand cache (lib/cache.ts)

The "SQL-backed" cache is a stub over an in-memory `Map<string, CachedRow>`.
The map is modelled as an association list with JS `Map` semantics: `set`
overwrites in place, insertion order is preserved, `get` finds the unique
entry for a key. -/

/-- One row of the in-memory cache (`CachedRow` in the source). -/
structure CachedRow where
  path : String
  content : String
  updated_at : String
deriving DecidableEq

/-- The in-memory `Map<string, CachedRow>` as an insertion-ordered
association list. -/
abbrev CodexCache := List (String × CachedRow)

/-- JS `Map.prototype.get`. -/
def jsMapGet (k : String) : CodexCache → Option CachedRow
  | [] => none
  | (k', v) :: rest => if k' = k then some v else jsMapGet k rest

/-- JS `Map.prototype.set`: overwrite in place if the key exists, else
append. -/
def jsMapSet (k : String) (v : CachedRow) : CodexCache → CodexCache
  | [] => [(k, v)]
  | (k', v') :: rest => if k' = k then (k, v) :: rest else (k', v') :: jsMapSet k v rest

/-- `getCachedStrand`: `if (!path) return null; return memoryCache.get(path)?.content ?? null`. -/
def getCachedStrand (path : String) (cache : CodexCache) : Option String :=
  if path = "" then none
  else (jsMapGet path cache).map CachedRow.content

/-- `setCachedStrand`: `if (!path) return; memoryCache.set(path, {path, content, updated_at})`.
The timestamp `new Date().toISOString()` is passed in as `now`. -/
def setCachedStrand (now path content : String) (cache : CodexCache) : CodexCache :=
  if path = "" then cache
  else jsMapSet path ⟨path, content, now⟩ cache

/-- `CodexCacheStats` from the source: total cached strands and the sum of
content character lengths. -/
structure CodexCacheStats where
  totalItems : Nat
  totalBytes : Nat
deriving DecidableEq

/-- `getCodexCacheStats`: iterate the map, summing `row.content.length`;
`totalItems` is `memoryCache.size`. -/
def getCodexCacheStats (cache : CodexCache) : CodexCacheStats :=
  { totalItems := cache.length
    totalBytes := (cache.map (fun e => e.2.content.length)).sum }

/-- `clearCodexCache`: `memoryCache.clear()`. -/
def clearCodexCache (_cache : CodexCache) : CodexCache := []

/-- A call against the cache module: either `setCachedStrand` (with its
timestamp) or `clearCodexCache`. -/
inductive CacheOp where
  | set (now path content : String)
  | clear
deriving DecidableEq

/-- Run one cache call. -/
def applyOp (cache : CodexCache) : CacheOp → CodexCache
  | .set now path content => setCachedStrand now path content cache
  | .clear => clearCodexCache cache

/-- Run a sequence of cache calls, left to right, starting from `cache`. -/
def applyOps (ops : List CacheOp) (cache : CodexCache) : CodexCache :=
  ops.foldl applyOp cache

/-- Does this call write the path `p`? -/
def CacheOp.writesTo : CacheOp → String → Bool
  | .set _ q _, p => q = p
  | .clear, _ => false

/-- Specification-level accounting: the distinct non-empty paths written
since the last `clear`, in first-write order. -/
def writesSinceClear (ops : List CacheOp) : List String :=
  ops.foldl
    (fun acc op =>
      match op with
      | .clear => []
      | .set _ p _ => if p = "" then acc else if p ∈ acc then acc else acc ++ [p])
    []

/-- Specification-level accounting: the most recently stored content for
path `p` since the last `clear` (ignoring empty-path no-op calls). -/
def lastWrite (ops : List CacheOp) (p : String) : Option String :=
  ops.foldl
    (fun acc op =>
      match op with
      | .clear => none
      | .set _ q c => if q ≠ "" ∧ q = p then some c else acc)
    none

/-! ### The placeholder search engine (lib/search/engine.ts) -/

/-- `matchType` of a search result. -/
inductive SearchMatchType where
  | title
  | content
  | semantic
deriving DecidableEq

/-- `CodexSearchResult` from lib/search/types.ts.  `score: number` only
ever holds ranking scores, modelled as `Nat`; the `metadata` field is an
untyped record in the source and is omitted. -/
structure CodexSearchResult where
  path : String
  title : String
  excerpt : String
  score : Nat
  matchType : SearchMatchType
  tags : Option (List String) := none
deriving DecidableEq

/-- `SearchOptions` from lib/search/types.ts (all fields optional). -/
structure EngineSearchOptions where
  limit : Option Nat := none
  semantic : Option Bool := none
  threshold : Option Nat := none
deriving DecidableEq

/-- The `SimpleSearchEngine` class: its only state is the indexed file
list (`private files: any[]`), payload type `α`. -/
structure SimpleSearchEngine (α : Type) where
  files : List α

/-- `index(files)` stores the file list. -/
def SimpleSearchEngine.index (e : SimpleSearchEngine α) (files : List α) :
    SimpleSearchEngine α :=
  { e with files := files }

/-- `search(query, options)`: `if (!query) return []`; otherwise an empty
`results` array is created, never pushed to, and returned. -/
def SimpleSearchEngine.search (_e : SimpleSearchEngine α) (query : String)
    (_options : EngineSearchOptions) : List CodexSearchResult :=
  if query = "" then []
  else []

/-- `canUseSemantic()` is literally `return false`. -/
def SimpleSearchEngine.canUseSemantic (_e : SimpleSearchEngine α) : Bool := false

/-! ### File classification (components/codex/constants.ts, utils.ts) -/

/-- `MARKDOWN_EXTENSIONS` from constants.ts. -/
def MARKDOWN_EXTENSIONS : List String := [".md", ".mdx"]

/-- `MEDIA_EXTENSIONS` from constants.ts, flattened
(images ++ audio ++ video ++ documents). -/
def ALL_MEDIA_EXTENSIONS : List String :=
  [".jpg", ".jpeg", ".png", ".gif", ".webp", ".svg", ".bmp", ".ico"] ++
  [".mp3", ".wav", ".ogg", ".m4a", ".aac", ".flac", ".webm"] ++
  [".mp4", ".webm", ".ogv", ".mov", ".avi", ".mkv"] ++
  [".pdf"]

/-- `TEXT_FILE_EXTENSIONS` from constants.ts. -/
def TEXT_FILE_EXTENSIONS : List String :=
  [".json", ".yaml", ".yml", ".toml", ".ini", ".cfg", ".conf", ".txt",
   ".log", ".env", ".gitignore", ".gitattributes", ".mdxconfig", ".schema"]

/-- The suffix of a char list starting at its last `'.'`, if any
(JS `filename.substring(filename.lastIndexOf('.'))`). -/
def lastDotSuffix : List Char → Option (List Char)
  | [] => none
  | c :: cs =>
    match lastDotSuffix cs with
    | some r => some r
    | none => if c = '.' then some (c :: cs) else none

/-- `getExtension` from utils.ts: lowercased extension including the dot,
`""` when the name has no dot. -/
def getExtension (filename : String) : String :=
  match lastDotSuffix filename.data with
  | none => ""
  | some r => String.mk (r.map Char.toLower)

/-- `listEndsWith l pat`: `pat` is a suffix of `l`. -/
def listEndsWith (l pat : List Char) : Bool :=
  listStartsWith l.reverse pat.reverse

/-- Modelled from the spec: `isMarkdownFile` is imported from
`packages/codex-viewer/src/lib/utils`, which is not part of this repository
snapshot.  The spec (§4.1 step 3) defines a markdown file by a `.md`/`.mdx`
extension, case-insensitive. -/
def isMarkdownName (name : String) : Bool :=
  listEndsWith (name.data.map Char.toLower) ".md".data ||
  listEndsWith (name.data.map Char.toLower) ".mdx".data

/-- `isMediaFile` from utils.ts: nonempty extension contained in the
(lowercased) media extension set. -/
def isMediaFile (name : String) : Bool :=
  let ext := getExtension name
  if ext = "" then false else (ALL_MEDIA_EXTENSIONS.map jsToLower).contains ext

/-- `isPreviewableTextFile` from utils.ts. -/
def isPreviewableTextFile (name : String) : Bool :=
  let ext := getExtension name
  if ext = "" then false else (TEXT_FILE_EXTENSIONS.map jsToLower).contains ext

/-! ### The flat file list and the search/filter hook
(components/codex/types.ts, utils.ts `shouldShowFile`,
hooks/useSearchFilter.ts) -/

/-- `'file' | 'dir'` from `GitHubFile.type`. -/
inductive FileType where
  | file
  | dir
deriving DecidableEq

/-- `GitHubFile` from types.ts (the fields the filter logic reads; `sha`
and the URL fields are carried opaquely and unused). -/
structure GitHubFile where
  name : String
  path : String
  type : FileType
  sha : String := ""
  size : Option Nat := none
deriving DecidableEq

/-- `FileFilterScope` from types.ts. -/
inductive FileFilterScope where
  | all
  | strands
  | media
  | configs
deriving DecidableEq

/-- `NavigationRootScope` from types.ts. -/
inductive NavigationRootScope where
  | fabric
  | weaves
deriving DecidableEq

/-- `'beginner' | 'intermediate' | 'advanced'`. -/
inductive Difficulty where
  | beginner
  | intermediate
  | advanced
deriving DecidableEq

/-- `SearchOptions` from types.ts. -/
structure SearchOptions where
  query : String
  searchNames : Bool
  searchContent : Bool
  caseSensitive : Bool
  difficulty : Option Difficulty := none
  tags : Option (List String) := none
  subjects : Option (List String) := none
  filterScope : FileFilterScope
  hideEmptyFolders : Bool
  rootScope : NavigationRootScope
deriving DecidableEq

/-- `shouldShowFile` from utils.ts: directories always pass; otherwise the
optional `extraExtensions` allow-list is checked, then the scope decides by
extension-set membership. -/
def shouldShowFile (f : GitHubFile) (scope : FileFilterScope)
    (_includeMarkdown : Bool := true) (extraExtensions : List String := []) : Bool :=
  if f.type = .dir then true
  else
    let ext := getExtension f.name
    if extraExtensions.length > 0 && !(ext = "") && !(extraExtensions.contains ext) then
      false
    else
      match scope with
      | .strands => isMarkdownName f.name
      | .media => isMediaFile f.name
      | .configs => isPreviewableTextFile f.name
      | .all => true

/-- The predicate of the query-filtering block of `useSearchFilter`
(`result.filter((f) => ...)`). -/
def queryFilterPred (o : SearchOptions) (f : GitHubFile) : Bool :=
  let q := if o.caseSensitive then o.query else jsToLower o.query
  let name := if o.caseSensitive then f.name else jsToLower f.name
  let path := if o.caseSensitive then f.path else jsToLower f.path
  (o.searchNames && jsIncludes name q) || jsIncludes path q

/-- `filteredFiles` from `useSearchFilter`: the `useMemo` body.  Step 1
(scope filtering) and step 3 (empty-folder hiding) are no-op blocks in the
source (comment-only TODOs); only the query filtering block (step 2)
changes the list. -/
def filteredFiles (files : List GitHubFile) (o : SearchOptions) : List GitHubFile :=
  if files.isEmpty then []
  else
    let result := files
    let result := if o.query = "" then result else result.filter (queryFilterPred o)
    result

/-! ### The viewer's file-content fetch flow (CodexViewer.tsx `fetchFileContent`)

The async effects are parameters: `cacheLookup` is the result of
`await getCachedStrand(file.path)` (`Except.error` models a throw), and
`network` is the result of `await fetch(file.download_url)` followed by
`response.text()` (`Except.error` models a fetch rejection or a non-ok
response, carrying the thrown message). -/

/-- What the viewer displays when `fetchFileContent` returns. -/
inductive FetchResult where
  /-- `if (file.type !== 'file' || !file.download_url) return` — nothing
  happens. -/
  | skipped
  /-- The happy path: `setFileContent(content)`, with the write
  `setCachedStrand(path, content)` performed when the content came from
  the network. -/
  | success (content : String) (cacheWrite : Option (String × String))
  /-- The catch block: `setError(err.message)` — the user-visible error
  state. -/
  | failure (errMsg : String)
deriving DecidableEq

/-- The outcome of one `fetchFileContent` call: the displayed result plus
whether `fetch(file.download_url)` was ever attempted. -/
structure FetchOutcome where
  result : FetchResult
  networkAttempted : Bool
deriving DecidableEq

/-- The network leg of `fetchFileContent`: fetch, throw on failure,
store the body in the cache, display it. -/
def fetchFromNetwork (path : String) (network : Except String String) : FetchOutcome :=
  match network with
  | .error e => ⟨.failure e, true⟩
  | .ok body => ⟨.success body (some (path, body)), true⟩

/-- `fetchFileContent` from CodexViewer.tsx.  The whole body sits in a
single `try`/`catch`: the cache lookup, the conditional network fetch and
the state updates are all covered by the one `catch` that sets the
user-visible error.  `let content = cached || ''` makes an empty cached
string falsy, so it also falls through to the network. -/
def fetchFileContent (fileType : FileType) (downloadUrl : Option String)
    (path : String) (cacheLookup : Except String (Option String))
    (network : Except String String) : FetchOutcome :=
  if fileType ≠ .file ∨ downloadUrl = none then ⟨.skipped, false⟩
  else
    match cacheLookup with
    | .error e => ⟨.failure e, false⟩
    | .ok (some cached) =>
      if cached = "" then fetchFromNetwork path network
      else ⟨.success cached none, false⟩
    | .ok none => fetchFromNetwork path network

/-! ### The branch-candidate loop of the tree fetcher
(hooks/useGithubTree.ts `fetchTree`)

`fetchGithubTree` (GraphQL) and `fetchGithubTreeREST` are network calls in
lib/githubGraphql; they are oracles `g r : String → Option α` here, keyed
by branch name (`none` models a rejection). -/

/-- Which API a single attempt used. -/
inductive ApiKind where
  | graphqlApi
  | restApi
deriving DecidableEq

/-- The attempts made for one candidate branch: GraphQL always, REST only
when GraphQL failed. -/
def tryBranchTrace (g : String → Option α) (b : String) : List (String × ApiKind) :=
  match g b with
  | some _ => [(b, .graphqlApi)]
  | none => [(b, .graphqlApi), (b, .restApi)]

/-- The result for one candidate branch: GraphQL first, REST as fallback. -/
def tryBranch (g r : String → Option α) (b : String) : Option α :=
  match g b with
  | some v => some v
  | none => r b

/-- The `for (const branch of branchCandidates)` loop: stop (`break`) at
the first branch for which either API succeeds.  Returns the successful
branch and value (the source also writes the branch back into
`REPO_CONFIG.BRANCH`) together with the full list of attempts made. -/
def fetchTreeLoop (g r : String → Option α) :
    List String → Option (String × α) × List (String × ApiKind)
  | [] => (none, [])
  | b :: bs =>
    match tryBranch g r b with
    | some v => (some (b, v), tryBranchTrace g b)
    | none =>
      let res := fetchTreeLoop g r bs
      (res.1, tryBranchTrace g b ++ res.2)

/-- First-occurrence deduplication, as `Array.from(new Set(...))`. -/
def dedupFirstAux (seen : List String) : List String → List String
  | [] => []
  | x :: xs => if x ∈ seen then dedupFirstAux seen xs else x :: dedupFirstAux (x :: seen) xs

/-- `Array.from(new Set(['master', 'main', REPO_CONFIG.BRANCH].filter(Boolean)))`. -/
def branchCandidates (config : String) : List String :=
  dedupFirstAux [] ((["master", "main", config]).filter (fun s => ¬ s = ""))

/-- The tree fetch of `useGithubTree.fetchTree`, as a function of the two
API oracles and the configured branch. -/
def fetchGithubTreeModel (g r : String → Option α) (config : String) :
    Option (String × α) × List (String × ApiKind) :=
  fetchTreeLoop g r (branchCandidates config)

/-! ### remarkStripControlFlags (lib/remark/remarkStripControlFlags.ts)

`CONTROL_FLAG_REGEX = /::[\w-]+::/g`.  `String.prototype.replace` with a
global regex removes the leftmost matches in one left-to-right scan,
resuming after the end of each match.  Because `[\w-]` and `':'` are
disjoint, the regex engine's backtracking never helps: the only possible
match at a position is `'::'`, a maximal nonempty run of word/hyphen
characters, then `'::'`.  The scanner is written with a fuel argument
(initial fuel = string length) so that it is structurally recursive and
kernel-computable; fuel-independence is proved below. -/

/-- The JS character class `[\w-]` (no Unicode flag, so `\w` is
`[A-Za-z0-9_]`). -/
def isWordDashChar (c : Char) : Bool :=
  c = '-' || c = '_' || ('a' ≤ c && c ≤ 'z') || ('A' ≤ c && c ≤ 'Z') || ('0' ≤ c && c ≤ '9')

/-- Length of the regex match of `/::[\w-]+::/` anchored at the head of
`l`, if any. -/
def matchLen (l : List Char) : Option Nat :=
  match l with
  | ':' :: ':' :: rest =>
    match rest.takeWhile isWordDashChar, rest.drop (rest.takeWhile isWordDashChar).length with
    | _ :: _, ':' :: ':' :: _ => some (4 + (rest.takeWhile isWordDashChar).length)
    | _, _ => none
  | _ => none

/-- The global-replace scan with fuel (`replace(CONTROL_FLAG_REGEX, '')`):
drop a match and resume after it, else keep one character and advance. -/
def stripFuel : Nat → List Char → List Char
  | 0, s => s
  | _ + 1, [] => []
  | fuel + 1, c :: cs =>
    match matchLen (c :: cs) with
    | some n => stripFuel fuel ((c :: cs).drop n)
    | none => c :: stripFuel fuel cs

/-- `value.replace(CONTROL_FLAG_REGEX, '')`. -/
def strip (s : List Char) : List Char := stripFuel s.length s

/-- Does the value contain a match of the control-flag regex anywhere?
This is `CONTROL_FLAG_REGEX.test(value)`: on entry to the transformer the
regex's `lastIndex` is always `0` (a failing `test` resets it, and a
global `replace` both starts from and ends at `0`), so `test` is a pure
containment check here. -/
def hasMatch : List Char → Bool
  | [] => false
  | c :: cs => (matchLen (c :: cs)).isSome || hasMatch cs

/-- The per-text-node transform of the plugin's `visit` callback:
`if (CONTROL_FLAG_REGEX.test(node.value)) node.value = node.value.replace(CONTROL_FLAG_REGEX, '')`. -/
def transformText (v : List Char) : List Char :=
  if hasMatch v then strip v else v

/-- The scan's removed segments as `(start, length)` pairs in coordinates
of the original string (with fuel, mirroring `stripFuel`). -/
def removedSegsFuel : Nat → List Char → List (Nat × Nat)
  | 0, _ => []
  | _ + 1, [] => []
  | fuel + 1, c :: cs =>
    match matchLen (c :: cs) with
    | some n => (0, n) :: (removedSegsFuel fuel ((c :: cs).drop n)).map (fun p => (p.1 + n, p.2))
    | none => (removedSegsFuel fuel cs).map (fun p => (p.1 + 1, p.2))

/-- The segments removed by `strip`, in original coordinates. -/
def removedSegments (s : List Char) : List (Nat × Nat) := removedSegsFuel s.length s

/-- Erase a sorted, disjoint list of `(start, length)` segments from a
char list (each remaining segment's coordinates are relative to the
current list). -/
def eraseSegs : List Char → List (Nat × Nat) → List Char
  | s, [] => s
  | s, (st, len) :: rest =>
    s.take st ++ eraseSegs (s.drop (st + len)) (rest.map (fun p => (p.1 - (st + len), p.2)))
termination_by _ segs => segs.length
decreasing_by simp

/-- An mdast node: a text node (`value`) or an interior node with
children (a `Root`, paragraph, heading, ...). -/
inductive MdNode where
  | text (value : List Char)
  | node (kind : String) (children : List MdNode)

mutual
/-- The plugin's transformer: `visit(tree, 'text', cb)`.  The callback
skips a node without a parent (`if (!parent || index === undefined)
return`), so a bare text root is left unchanged; every text node reached
through a parent is rewritten by `transformText`. -/
def remarkStripNode (hasParent : Bool) : MdNode → MdNode
  | .text v => if hasParent then .text (transformText v) else .text v
  | .node k cs => .node k (remarkStripList cs)

/-- Transform a children list (each child has a parent). -/
def remarkStripList : List MdNode → List MdNode
  | [] => []
  | c :: cs => remarkStripNode true c :: remarkStripList cs
end

/-- `remarkStripControlFlags()` applied to a tree root. -/
def remarkStripControlFlags (tree : MdNode) : MdNode :=
  remarkStripNode false tree

mutual
/-- All text-node values of a tree, in document order. -/
def textValues : MdNode → List (List Char)
  | .text v => [v]
  | .node _ cs => textValuesList cs

/-- All text-node values of a children list. -/
def textValuesList : List MdNode → List (List Char)
  | [] => []
  | c :: cs => textValues c ++ textValuesList cs
end

/-! ### The knowledge-tree builder

Modelled from the spec: `buildKnowledgeTree` lives in
`components/codex/utils` which is not part of this repository snapshot —
only its caller (`useGithubTree.fetchTree`) and the node types
(`GitTreeItem`, `KnowledgeTreeNode`, `NodeLevel` in types.ts) are.  The
definitions below follow §4.1 of the spec: split each path into segments
(dropping empty segments), insert with on-demand creation of missing
ancestor directories (re-insertion overwrites, it does not duplicate),
then decorate every node with its full path, its `strandCount`
(post-order: a markdown file contributes 1, a directory sums its
children) and its depth-derived `level`. -/

/-- `'blob' | 'tree'` of a `GitTreeItem`. -/
inductive GitItemType where
  | blob
  | tree
deriving DecidableEq

/-- `GitTreeItem` from types.ts: one entry of the flat recursive tree
listing. -/
structure GitTreeItem where
  path : String
  type : GitItemType
  sha : String := ""
  size : Option Nat := none
deriving DecidableEq

/-- `NodeLevel` from types.ts. -/
inductive NodeLevel where
  | fabric
  | weave
  | loom
  | strand
  | folder
deriving DecidableEq

/-- `blob ↦ file`, `tree ↦ dir`. -/
def fileTypeOfItem : GitItemType → FileType
  | .blob => .file
  | .tree => .dir

/-- Split a char list on `'/'` (`cur` accumulates the pending segment in
reverse). -/
def splitOnSlash : List Char → List Char → List (List Char)
  | [], cur => [cur.reverse]
  | c :: rest, cur =>
    if c = '/' then cur.reverse :: splitOnSlash rest [] else splitOnSlash rest (c :: cur)

/-- Modelled from the spec (§4.1 failure semantics): path split into
segments with zero-length segments stripped. -/
def pathSegments (p : String) : List String :=
  ((splitOnSlash p.data []).filter (fun seg => ¬ seg = [])).map String.mk

/-- The raw tree shape built by insertion: name, type and children (paths,
counts and levels are derived afterwards). -/
inductive RawNode where
  | mk (name : String) (type : FileType) (children : List RawNode)

/-- Name of a raw node. -/
def RawNode.name : RawNode → String
  | .mk n _ _ => n

/-- Type of a raw node. -/
def RawNode.type : RawNode → FileType
  | .mk _ ty _ => ty

/-- Children of a raw node. -/
def RawNode.children : RawNode → List RawNode
  | .mk _ _ cs => cs

/-- Insert or overwrite the leaf node named `s` in a sibling list: on a
hit the item's actual type replaces the node's type and the children are
kept (idempotent re-insertion); on a miss a fresh node is appended. -/
def upsertLeaf (s : String) (ty : FileType) : List RawNode → List RawNode
  | [] => [.mk s ty []]
  | n :: ns =>
    if n.name = s then .mk s ty n.children :: ns
    else n :: upsertLeaf s ty ns

/-- Descend into (or create) the directory named `s` in a sibling list and
rewrite its children with `f`. -/
def upsertInto (s : String) (f : List RawNode → List RawNode) : List RawNode → List RawNode
  | [] => [.mk s .dir (f [])]
  | n :: ns =>
    if n.name = s then .mk n.name n.type (f n.children) :: ns
    else n :: upsertInto s f ns

/-- Modelled from the spec (§4.1 steps 1–3): walk the segment list from
the synthetic root, creating missing intermediate directories, and place
the item's node at the leaf segment. -/
def insertSegs (segs : List String) (ty : FileType) (forest : List RawNode) : List RawNode :=
  match segs with
  | [] => forest
  | [s] => upsertLeaf s ty forest
  | s :: s2 :: rest => upsertInto s (fun kids => insertSegs (s2 :: rest) ty kids) forest

/-- Modelled from the spec: fold the flat item list into the raw forest. -/
def buildRaw (items : List GitTreeItem) : List RawNode :=
  items.foldl (fun forest it => insertSegs (pathSegments it.path) (fileTypeOfItem it.type) forest) []

/-- `KnowledgeTreeNode` from types.ts: name, full path, type, children,
markdown-descendant count and depth-derived level. -/
inductive KTree where
  | mk (name path : String) (type : FileType) (children : List KTree)
       (strandCount : Nat) (level : NodeLevel)

/-- Name of a knowledge-tree node. -/
def KTree.name : KTree → String
  | .mk n _ _ _ _ _ => n

/-- Full path of a knowledge-tree node. -/
def KTree.path : KTree → String
  | .mk _ p _ _ _ _ => p

/-- Type of a knowledge-tree node. -/
def KTree.type : KTree → FileType
  | .mk _ _ ty _ _ _ => ty

/-- Children of a knowledge-tree node. -/
def KTree.children : KTree → List KTree
  | .mk _ _ _ cs _ _ => cs

/-- Strand count of a knowledge-tree node. -/
def KTree.strandCount : KTree → Nat
  | .mk _ _ _ _ sc _ => sc

/-- Level of a knowledge-tree node. -/
def KTree.level : KTree → NodeLevel
  | .mk _ _ _ _ _ lv => lv

/-- Modelled from the spec (§3 data-model invariants): `level` is a pure
function of depth under the synthetic root and type — depth-1 directories
are `weave`, deeper directories `loom`, markdown files `strand` regardless
of depth, other files `folder`.  (§4.1's edge-case list instead assigns
`folder` to files directly at the repository root even when they are
markdown; the two spec rules contradict each other for a depth-1 markdown
file, and the implementation is not in this snapshot to arbitrate.  This
model follows the §3 rule.) -/
def levelOf (depth : Nat) (ty : FileType) (name : String) : NodeLevel :=
  match ty with
  | .dir => if depth = 1 then .weave else .loom
  | .file => if isMarkdownName name then .strand else .folder

/-- Modelled from the spec (§4.1 step 3–4): the `strandCount` stored on a
node — a file counts itself iff markdown, a directory sums its children. -/
def countOf (ty : FileType) (name : String) (kids : List KTree) : Nat :=
  match ty with
  | .file => if isMarkdownName name then 1 else 0
  | .dir => (kids.map KTree.strandCount).sum

mutual
/-- Modelled from the spec (§4.1 steps 4–5): decorate a raw node at the
given depth with its path, strand count and level. -/
def decorate (parentPath : String) (depth : Nat) : RawNode → KTree
  | .mk n ty cs =>
    KTree.mk n (if parentPath = "" then n else parentPath ++ "/" ++ n) ty
      (decorateList (if parentPath = "" then n else parentPath ++ "/" ++ n) (depth + 1) cs)
      (countOf ty n (decorateList (if parentPath = "" then n else parentPath ++ "/" ++ n) (depth + 1) cs))
      (levelOf depth ty n)

/-- Decorate a sibling list. -/
def decorateList (parentPath : String) (depth : Nat) : List RawNode → List KTree
  | [] => []
  | c :: cs => decorate parentPath depth c :: decorateList parentPath depth cs
end

/-- Modelled from the spec (§4.1 contract): build the knowledge tree —
insert every item, then decorate the resulting top-level forest at
depth 1. -/
def buildKnowledgeTree (items : List GitTreeItem) : List KTree :=
  decorateList "" 1 (buildRaw items)

mutual
/-- A node together with all of its descendants. -/
def allNodes : KTree → List KTree
  | .mk n p ty cs sc lv => KTree.mk n p ty cs sc lv :: allNodesList cs

/-- All nodes of a forest. -/
def allNodesList : List KTree → List KTree
  | [] => []
  | c :: cs => allNodes c ++ allNodesList cs
end

/-- The per-node strand-count invariant of claim C1: a directory's count
is the sum of its children's counts, a file's count is 1 exactly on a
markdown name and 0 otherwise. -/
def nodeCountOK (t : KTree) : Prop :=
  (t.type = .dir → t.strandCount = (t.children.map KTree.strandCount).sum) ∧
  (t.type = .file → t.strandCount = (if isMarkdownName t.name then 1 else 0))

/-! ### Theorems.  First the simple functional claims, then the cache,
the branch loop, the strip pass and the tree builder. -/

/-- Claim C6: for every query string and every options value, the search
engine's search operation returns the empty result list (for the empty
query immediately, for any other query after indexing any file set), and
canUseSemantic() returns false. -/
theorem C6_search_engine_placeholder :
    ∀ (α : Type) (e : SimpleSearchEngine α) (files : List α) (q : String)
      (o : EngineSearchOptions),
      SimpleSearchEngine.search e q o = [] ∧
      SimpleSearchEngine.search (SimpleSearchEngine.index e files) q o = [] ∧
      SimpleSearchEngine.canUseSemantic e = false := by
  intro α e files q o
  refine ⟨?_, ?_, rfl⟩ <;>
    · unfold SimpleSearchEngine.search
      split <;> rfl

/-- Claim C4 counterexample: when the cache lookup throws, the viewer's
fetch flow ends in the user-visible error state and never attempts the
network fetch — the claimed "swallow with a warning and fall through to
network" does not happen.  Here the network oracle would even succeed. -/
theorem C4_counterexample :
    fetchFileContent .file (some "https://raw.example/one.md") "weaves/a/one.md"
        (.error "cache boom") (.ok "# content") =
      ⟨.failure "cache boom", false⟩ := by
  rfl

/-- Claim C4 (amended): the whole of fetchFileContent runs in one
try/catch, so a cache-lookup failure propagates to the catch block: it
surfaces as the user-visible error state, and no network fetch is
attempted. -/
theorem C4_cache_failure_surfaces_as_error :
    ∀ (url path e : String) (network : Except String String),
      fetchFileContent .file (some url) path (.error e) network =
        ⟨.failure e, false⟩ := by
  intro url path e network
  rfl

/-- Claim C3 counterexample: a non-markdown file that matches the query is
kept by the hook's filter even under scope `strands`, although the scope
predicate (shouldShowFile) rejects it — the filtered result is not the
conjunction of the scope predicate and the query predicate. -/
theorem C3_counterexample :
    filteredFiles
        [{ name := "readme.txt", path := "weaves/b/readme.txt", type := .file }]
        { query := "read", searchNames := true, searchContent := false,
          caseSensitive := false, filterScope := .strands,
          hideEmptyFolders := false, rootScope := .fabric } =
      [{ name := "readme.txt", path := "weaves/b/readme.txt", type := .file }] ∧
    shouldShowFile
        { name := "readme.txt", path := "weaves/b/readme.txt", type := .file }
        .strands true [] = false := by
  constructor
  · rfl
  · rfl

/-- Claim C3 (amended): the hook's filter applies the query predicate
only.  The scope-filtering step of `useSearchFilter` is a no-op block, so
the result is independent of the filter scope; the scope predicate
(shouldShowFile) is applied elsewhere (to the sidebar tree), not composed
over this flat list. -/
theorem C3_filter_is_query_predicate_only :
    ∀ (files : List GitHubFile) (o : SearchOptions),
      filteredFiles files o =
        (if o.query = "" then files else files.filter (queryFilterPred o)) ∧
      ∀ (scope : FileFilterScope),
        filteredFiles files { o with filterScope := scope } = filteredFiles files o := by
  intro files o
  constructor
  · cases files with
    | nil => by_cases hq : o.query = "" <;> simp [filteredFiles, hq]
    | cons f fs => by_cases hq : o.query = "" <;> simp [filteredFiles, hq]
  · intro scope
    have hpred : queryFilterPred { o with filterScope := scope } = queryFilterPred o := by
      funext f
      simp [queryFilterPred]
    simp [filteredFiles, hpred]

/-- Claim C9: with a non-empty query, a file whose path contains the query
is kept even when searchNames is false; with searchNames false the result
is exactly the files whose (case-folded, unless caseSensitive) path
contains the query — the name toggle cannot disable path matching. -/
theorem C9_path_match_survives_searchNames_off :
    ∀ (files : List GitHubFile) (o : SearchOptions),
      o.query ≠ "" → o.searchNames = false →
      filteredFiles files o =
        files.filter (fun f =>
          jsIncludes (if o.caseSensitive then f.path else jsToLower f.path)
            (if o.caseSensitive then o.query else jsToLower o.query)) ∧
      ∀ f ∈ files,
        jsIncludes (if o.caseSensitive then f.path else jsToLower f.path)
          (if o.caseSensitive then o.query else jsToLower o.query) = true →
        f ∈ filteredFiles files o := by
  intro files o hq hn
  have hpred : ∀ f, queryFilterPred o f =
      jsIncludes (if o.caseSensitive then f.path else jsToLower f.path)
        (if o.caseSensitive then o.query else jsToLower o.query) := by
    intro f
    simp [queryFilterPred, hn]
  have hmain : filteredFiles files o =
      files.filter (fun f =>
        jsIncludes (if o.caseSensitive then f.path else jsToLower f.path)
          (if o.caseSensitive then o.query else jsToLower o.query)) := by
    cases files with
    | nil => simp [filteredFiles]
    | cons f fs =>
      simp only [filteredFiles]
      rw [if_neg (by simp), if_neg hq]
      exact List.filter_congr (fun f _ => hpred f)
  refine ⟨hmain, ?_⟩
  intro f hf hpath
  rw [hmain]
  exact List.mem_filter.mpr ⟨hf, hpath⟩

/-- Witness for C9: the file `two.md` matches the query `"sub"` only via
its path, and with searchNames off it is still in the filtered list. -/
theorem C9_witness :
    ({ name := "two.md", path := "weaves/a/sub/two.md", type := .file } : GitHubFile) ∈
      filteredFiles [{ name := "two.md", path := "weaves/a/sub/two.md", type := .file }]
        { query := "Sub", searchNames := false, searchContent := false,
          caseSensitive := false, filterScope := .all,
          hideEmptyFolders := false, rootScope := .fabric } :=
  (C9_path_match_survives_searchNames_off
      [{ name := "two.md", path := "weaves/a/sub/two.md", type := .file }]
      { query := "Sub", searchNames := false, searchContent := false,
        caseSensitive := false, filterScope := .all,
        hideEmptyFolders := false, rootScope := .fabric }
      (by decide) rfl).2
    { name := "two.md", path := "weaves/a/sub/two.md", type := .file }
    (by decide) (by decide)

/-- jsMapGet after jsMapSet at the same key. -/
theorem jsMapGet_set_self (k : String) (v : CachedRow) :
    ∀ (l : CodexCache), jsMapGet k (jsMapSet k v l) = some v := by
  intro l
  induction l with
  | nil => simp [jsMapSet, jsMapGet]
  | cons e rest ih =>
    obtain ⟨k', v'⟩ := e
    by_cases h : k' = k <;> simp [jsMapSet, jsMapGet, h, ih]

/-- jsMapGet after jsMapSet at a different key. -/
theorem jsMapGet_set_ne {k k' : String} (v : CachedRow) (h : k' ≠ k) :
    ∀ (l : CodexCache), jsMapGet k (jsMapSet k' v l) = jsMapGet k l := by
  intro l
  induction l with
  | nil => simp [jsMapSet, jsMapGet, h]
  | cons e rest ih =>
    obtain ⟨k'', v''⟩ := e
    by_cases h2 : k'' = k' <;> by_cases h3 : k'' = k <;>
      simp_all [jsMapSet, jsMapGet]

/-- A path no operation writes stays absent from the map. -/
theorem applyOps_get_none_of_not_written {p : String} :
    ∀ (ops : List CacheOp) (cache : CodexCache),
      (∀ op ∈ ops, op.writesTo p = false) →
      jsMapGet p cache = none → jsMapGet p (applyOps ops cache) = none := by
  intro ops
  induction ops with
  | nil =>
    intro cache _ h0
    exact h0
  | cons op rest ih =>
    intro cache hops h0
    match op with
    | .clear =>
      apply ih _ (fun o ho => hops o (List.mem_cons_of_mem _ ho))
      rfl
    | .set now q c =>
      have hq : q ≠ p := by
        have := hops _ (List.mem_cons_self _ _)
        simpa [CacheOp.writesTo] using this
      apply ih _ (fun o ho => hops o (List.mem_cons_of_mem _ ho))
      show jsMapGet p (setCachedStrand now q c cache) = none
      unfold setCachedStrand
      split
      · exact h0
      · rw [jsMapGet_set_ne _ hq]
        exact h0

/-- Claim C7: for every non-empty path p and content c, getCachedStrand p
immediately after setCachedStrand p c returns c (round-trip), and
getCachedStrand of a path never stored returns null. -/
theorem C7_cache_roundtrip :
    (∀ (now p c : String) (cache : CodexCache), p ≠ "" →
        getCachedStrand p (setCachedStrand now p c cache) = some c) ∧
    (∀ (ops : List CacheOp) (p : String),
        (∀ op ∈ ops, op.writesTo p = false) →
        getCachedStrand p (applyOps ops []) = none) := by
  constructor
  · intro now p c cache hp
    unfold getCachedStrand setCachedStrand
    rw [if_neg hp, if_neg hp, jsMapGet_set_self]
    rfl
  · intro ops p hops
    unfold getCachedStrand
    split
    · rfl
    · rw [applyOps_get_none_of_not_written ops [] hops rfl]
      rfl

/-- Witness for C7: a concrete round-trip, and a read of an unwritten
path after one write. -/
theorem C7_witness :
    getCachedStrand "weaves/a/one.md"
        (setCachedStrand "2026-10-11T00:00:00Z" "weaves/a/one.md" "# One" []) =
      some "# One" ∧
    getCachedStrand "weaves/a/two.md"
        (applyOps [CacheOp.set "2026-10-11T00:00:00Z" "weaves/a/one.md" "# One"] []) =
      none :=
  ⟨C7_cache_roundtrip.1 "2026-10-11T00:00:00Z" "weaves/a/one.md" "# One" [] (by decide),
   C7_cache_roundtrip.2 [CacheOp.set "2026-10-11T00:00:00Z" "weaves/a/one.md" "# One"]
     "weaves/a/two.md" (by decide)⟩

/-- The candidate list is always `master`, `main`, then the configured
branch, first-occurrence deduplicated with empty strings dropped. -/
theorem branchCandidates_shape (config : String) :
    branchCandidates config = ["master", "main"] ∨
      branchCandidates config = ["master", "main", config] := by
  by_cases h1 : config = ""
  · left
    simp [branchCandidates, h1, dedupFirstAux]
  · by_cases h2 : config = "master"
    · left
      simp [branchCandidates, h1, h2, dedupFirstAux]
    · by_cases h3 : config = "main"
      · left
        simp [branchCandidates, h1, h2, h3, dedupFirstAux]
      · right
        simp [branchCandidates, h1, h2, h3, dedupFirstAux]

/-- The loop stops at the first candidate branch for which either API
succeeds: every earlier branch is attempted with both APIs, the
successful branch tries GraphQL and then REST only if GraphQL failed,
and no later branch is attempted. -/
theorem fetchTreeLoop_first_success {α : Type} (g r : String → Option α) :
    ∀ (bs₁ : List String) (b : String) (bs₂ : List String),
      (∀ x ∈ bs₁, g x = none ∧ r x = none) →
      ((g b).isSome ∨ (r b).isSome) →
      ∃ v, fetchTreeLoop g r (bs₁ ++ b :: bs₂) =
          (some (b, v),
            bs₁.flatMap (fun x => [(x, ApiKind.graphqlApi), (x, ApiKind.restApi)]) ++
              tryBranchTrace g b) ∧
        (g b = some v ∨ (g b = none ∧ r b = some v)) := by
  intro bs₁
  induction bs₁ with
  | nil =>
    intro b bs₂ _ hsucc
    cases hg : g b with
    | some v =>
      refine ⟨v, ?_, Or.inl rfl⟩
      simp [fetchTreeLoop, tryBranch, hg, tryBranchTrace]
    | none =>
      cases hr : r b with
      | some v =>
        refine ⟨v, ?_, Or.inr ⟨rfl, rfl⟩⟩
        simp [fetchTreeLoop, tryBranch, hg, hr, tryBranchTrace]
      | none =>
        rw [hg, hr] at hsucc
        simp at hsucc
  | cons x xs ih =>
    intro b bs₂ hfail hsucc
    obtain ⟨hgx, hrx⟩ := hfail x (List.mem_cons_self _ _)
    obtain ⟨v, hres, hv⟩ := ih b bs₂ (fun y hy => hfail y (List.mem_cons_of_mem _ hy)) hsucc
    refine ⟨v, ?_, hv⟩
    have htb : tryBranch g r x = none := by simp [tryBranch, hgx, hrx]
    simp only [List.cons_append, fetchTreeLoop, htb, List.flatMap_cons, List.append_eq]
    rw [hres]
    simp [tryBranchTrace, hgx, List.append_assoc]

/-- Claim C5: the tree fetcher tries candidate branches in the order
`master`, `main`, configured branch (deduplicated); per candidate it tries
GraphQL first, falls back to REST once, stops at the first candidate for
which either succeeds, and attempts no candidate after the first
success. -/
theorem C5_branch_candidate_loop {α : Type} (g r : String → Option α)
    (config : String) (bs₁ : List String) (b : String) (bs₂ : List String)
    (hdecomp : branchCandidates config = bs₁ ++ b :: bs₂)
    (hfail : ∀ x ∈ bs₁, g x = none ∧ r x = none)
    (hsucc : (g b).isSome ∨ (r b).isSome) :
    (branchCandidates config = ["master", "main"] ∨
      branchCandidates config = ["master", "main", config]) ∧
    ∃ v, fetchGithubTreeModel g r config =
        (some (b, v),
          bs₁.flatMap (fun x => [(x, ApiKind.graphqlApi), (x, ApiKind.restApi)]) ++
            tryBranchTrace g b) ∧
      (g b = some v ∨ (g b = none ∧ r b = some v)) := by
  refine ⟨branchCandidates_shape config, ?_⟩
  unfold fetchGithubTreeModel
  rw [hdecomp]
  exact fetchTreeLoop_first_success g r bs₁ b bs₂ hfail hsucc

/-- Witness for C5: with GraphQL failing everywhere, REST failing on
`master` and succeeding on `main`, the loop returns `main`'s payload after
attempting both APIs on `master` and both on `main`, and never touches the
configured branch `dev`. -/
theorem C5_witness :
    ∃ v, fetchGithubTreeModel (fun _ => (none : Option Nat))
        (fun s => if s = "main" then some 7 else none) "dev" =
        (some (("main" : String), v),
          (["master"] : List String).flatMap
              (fun x => [(x, ApiKind.graphqlApi), (x, ApiKind.restApi)]) ++
            tryBranchTrace (fun _ => (none : Option Nat)) "main") ∧
      ((fun _ => (none : Option Nat)) "main" = some v ∨
        ((fun _ => (none : Option Nat)) "main" = none ∧
          (if ("main" : String) = "main" then some 7 else none) = some v)) :=
  (C5_branch_candidate_loop (fun _ => (none : Option Nat))
      (fun s => if s = "main" then some 7 else none) "dev"
      ["master"] "main" ["dev"] (by decide) (by decide) (by decide)).2


/-- Keys after a jsMapSet: unchanged on overwrite, appended on a miss. -/
theorem jsMapSet_keys (k : String) (v : CachedRow) :
    ∀ (l : CodexCache),
      (jsMapSet k v l).map Prod.fst =
        if k ∈ l.map Prod.fst then l.map Prod.fst else l.map Prod.fst ++ [k] := by
  intro l
  induction l with
  | nil => simp [jsMapSet]
  | cons e rest ih =>
    obtain ⟨k', v'⟩ := e
    by_cases h : k' = k
    · subst h
      simp [jsMapSet]
    · have hne : ¬(k = k') := fun heq => h heq.symm
      simp only [jsMapSet, if_neg h, List.map_cons, List.mem_cons, hne, false_or]
      rw [ih]
      by_cases h2 : k ∈ rest.map Prod.fst <;> simp [h2]

/-- One cache call moves the key list by one accounting step. -/
theorem applyOp_keys (cache : CodexCache) (op : CacheOp) :
    (applyOp cache op).map Prod.fst =
      (match op with
        | .clear => []
        | .set _ p _ =>
          if p = "" then cache.map Prod.fst
          else if p ∈ cache.map Prod.fst then cache.map Prod.fst
          else cache.map Prod.fst ++ [p] : List String) := by
  match op with
  | .clear => rfl
  | .set now p c =>
    show (setCachedStrand now p c cache).map Prod.fst = _
    dsimp only
    unfold setCachedStrand
    by_cases hp : p = ""
    · simp [hp]
    · rw [if_neg hp, if_neg hp, jsMapSet_keys]

/-- The cache's key list evolves exactly like the accounting fold of
`writesSinceClear`. -/
theorem applyOps_keys :
    ∀ (ops : List CacheOp) (cache : CodexCache),
      (applyOps ops cache).map Prod.fst =
        ops.foldl
          (fun acc op =>
            match op with
            | .clear => []
            | .set _ p _ => if p = "" then acc else if p ∈ acc then acc else acc ++ [p])
          (cache.map Prod.fst) := by
  intro ops
  induction ops with
  | nil => intro cache; rfl
  | cons op rest ih =>
    intro cache
    rw [List.foldl_cons]
    have h1 : applyOps (op :: rest) cache = applyOps rest (applyOp cache op) := rfl
    rw [h1, ih (applyOp cache op), applyOp_keys]


/-- One cache call moves the content stored under `p` by one accounting
step. -/
theorem applyOp_content (p : String) (cache : CodexCache) (op : CacheOp) :
    (jsMapGet p (applyOp cache op)).map CachedRow.content =
      (match op with
        | .clear => none
        | .set _ q c =>
          if q ≠ "" ∧ q = p then some c
          else (jsMapGet p cache).map CachedRow.content : Option String) := by
  match op with
  | .clear => rfl
  | .set now q c =>
    show (jsMapGet p (setCachedStrand now q c cache)).map CachedRow.content = _
    unfold setCachedStrand
    by_cases hq : q = ""
    · simp [hq]
    · rw [if_neg hq]
      by_cases hqp : q = p
      · subst hqp
        rw [jsMapGet_set_self]
        simp [hq]
      · rw [jsMapGet_set_ne _ hqp]
        simp [hq, hqp]

/-- The content stored under `p` evolves exactly like the accounting fold
of `lastWrite`. -/
theorem applyOps_content (p : String) :
    ∀ (ops : List CacheOp) (cache : CodexCache),
      (jsMapGet p (applyOps ops cache)).map CachedRow.content =
        ops.foldl
          (fun acc op =>
            match op with
            | .clear => none
            | .set _ q c => if q ≠ "" ∧ q = p then some c else acc)
          ((jsMapGet p cache).map CachedRow.content) := by
  intro ops
  induction ops with
  | nil => intro cache; rfl
  | cons op rest ih =>
    intro cache
    rw [List.foldl_cons]
    have h1 : applyOps (op :: rest) cache = applyOps rest (applyOp cache op) := rfl
    rw [h1, ih (applyOp cache op), applyOp_content]

/-- The accounting fold of `writesSinceClear` preserves key uniqueness. -/
theorem writes_fold_nodup :
    ∀ (ops : List CacheOp) (acc : List String), acc.Nodup →
      (ops.foldl
          (fun acc op =>
            match op with
            | .clear => []
            | .set _ p _ => if p = "" then acc else if p ∈ acc then acc else acc ++ [p])
          acc).Nodup := by
  intro ops
  induction ops with
  | nil => intro acc h; exact h
  | cons op rest ih =>
    intro acc h
    rw [List.foldl_cons]
    apply ih
    match op with
    | .clear => exact List.nodup_nil
    | .set now p c =>
      show (if p = "" then acc else if p ∈ acc then acc else acc ++ [p]).Nodup
      by_cases hp : p = ""
      · simpa [hp] using h
      · by_cases hmem : p ∈ acc
        · simpa [hp, hmem] using h
        · rw [if_neg hp, if_neg hmem]
          simp [List.nodup_append, h, hmem]

/-- For a cache with unique keys, the stored byte total equals the sum
over keys of the length of the content found at that key. -/
theorem bytes_sum_over_keys :
    ∀ (cache : CodexCache), (cache.map Prod.fst).Nodup →
      (cache.map (fun e => e.2.content.length)).sum =
        ((cache.map Prod.fst).map
            (fun p => (((jsMapGet p cache).map CachedRow.content).getD "").length)).sum := by
  intro cache
  induction cache with
  | nil => simp
  | cons e rest ih =>
    obtain ⟨k, row⟩ := e
    intro h
    simp only [List.map_cons, List.sum_cons] at h ⊢
    obtain ⟨hk, hrest⟩ := List.nodup_cons.mp h
    congr 1
    · simp [jsMapGet]
    · rw [ih hrest]
      congr 1
      apply List.map_congr_left
      intro p hp
      have hpk : ¬(k = p) := by
        intro heq
        exact hk (heq ▸ hp)
      simp [jsMapGet, hpk]

/-- `lastWrite` of the empty path is always `null`: empty-path writes are
no-ops. -/
theorem lastWrite_empty_path :
    ∀ (ops : List CacheOp), lastWrite ops "" = none := by
  have main :
      ∀ (ops : List CacheOp),
        (ops.foldl
            (fun acc op =>
              match op with
              | .clear => none
              | .set _ q c => if q ≠ "" ∧ q = "" then some c else acc)
            none : Option String) = none := by
    intro ops
    induction ops with
    | nil => rfl
    | cons op rest ih =>
      rw [List.foldl_cons]
      match op with
      | .clear => exact ih
      | .set now q c =>
        have hstep : (if q ≠ "" ∧ q = "" then some c else (none : Option String)) = none := by
          by_cases hq : q = "" <;> simp [hq]
        show (rest.foldl _ (if q ≠ "" ∧ q = "" then some c else (none : Option String))) = none
        rw [hstep]
        exact ih
  intro ops
  exact main ops

/-- Claim C10: after any sequence of setCachedStrand / clearCodexCache
calls, getCodexCacheStats reports totalItems = number of distinct
non-empty paths written since the last clear and totalBytes = sum of the
lengths of the most recently stored content per path; re-writing a path
overwrites (no double counting), and empty-path calls are no-ops. -/
theorem C10_cache_stats_accounting :
    ∀ (ops : List CacheOp),
      (getCodexCacheStats (applyOps ops [])).totalItems = (writesSinceClear ops).length ∧
      (getCodexCacheStats (applyOps ops [])).totalBytes =
        ((writesSinceClear ops).map (fun p => ((lastWrite ops p).getD "").length)).sum ∧
      (∀ p, getCachedStrand p (applyOps ops []) = lastWrite ops p) ∧
      (∀ (now c : String) (cache : CodexCache), setCachedStrand now "" c cache = cache) := by
  intro ops
  have hkeys : (applyOps ops []).map Prod.fst = writesSinceClear ops := by
    rw [applyOps_keys ops []]
    rfl
  have hcontent : ∀ p, (jsMapGet p (applyOps ops [])).map CachedRow.content = lastWrite ops p := by
    intro p
    rw [applyOps_content p ops []]
    rfl
  have hnodup : ((applyOps ops []).map Prod.fst).Nodup := by
    rw [applyOps_keys ops []]
    exact writes_fold_nodup ops [] List.nodup_nil
  refine ⟨?_, ?_, ?_, ?_⟩
  · show (applyOps ops []).length = _
    rw [← hkeys, List.length_map]
  · show (List.map (fun e => e.2.content.length) (applyOps ops [])).sum = _
    rw [bytes_sum_over_keys _ hnodup, hkeys]
    congr 1
    apply List.map_congr_left
    intro p _
    rw [hcontent p]
  · intro p
    by_cases hp : p = ""
    · subst hp
      rw [lastWrite_empty_path]
      rfl
    · show (if p = "" then none else (jsMapGet p (applyOps ops [])).map CachedRow.content) = _
      rw [if_neg hp, hcontent p]
  · intro now c cache
    rfl

/-- A control-flag match is nonempty (it is `'::' run '::'` with a
nonempty run). -/
theorem matchLen_pos {l : List Char} {n : Nat} (h : matchLen l = some n) : 0 < n := by
  unfold matchLen at h
  split at h
  · split at h
    · simp at h
      omega
    · simp at h
  · simp at h

/-- The scanner on the empty string, any fuel. -/
theorem stripFuel_nil (fuel : Nat) : stripFuel fuel [] = [] := by
  cases fuel <;> rfl

/-- The scanner is fuel-independent once the fuel covers the length. -/
theorem stripFuel_congr :
    ∀ (k fuel fuel' : Nat) (s : List Char), fuel ≤ k → s.length ≤ fuel → s.length ≤ fuel' →
      stripFuel fuel s = stripFuel fuel' s := by
  intro k
  induction k with
  | zero =>
    intro fuel fuel' s hk hf _
    have hs : s.length = 0 := by omega
    rw [List.length_eq_zero] at hs
    subst hs
    rw [stripFuel_nil, stripFuel_nil]
  | succ k ih =>
    intro fuel fuel' s hk hf hf'
    match s with
    | [] => rw [stripFuel_nil, stripFuel_nil]
    | c :: cs =>
      have hlen : cs.length + 1 ≤ fuel := by simpa using hf
      have hlen' : cs.length + 1 ≤ fuel' := by simpa using hf'
      obtain ⟨f, rfl⟩ : ∃ f, fuel = f + 1 := ⟨fuel - 1, by omega⟩
      obtain ⟨f', rfl⟩ : ∃ f', fuel' = f' + 1 := ⟨fuel' - 1, by omega⟩
      simp only [stripFuel]
      cases hm : matchLen (c :: cs) with
      | some n =>
        have hn := matchLen_pos hm
        apply ih
        · omega
        · simp [List.length_drop]
          omega
        · simp [List.length_drop]
          omega
      | none =>
        dsimp only
        congr 1
        apply ih <;> omega

/-- Any sufficient fuel computes `strip`. -/
theorem stripFuel_eq {fuel : Nat} {s : List Char} (h : s.length ≤ fuel) :
    stripFuel fuel s = strip s :=
  stripFuel_congr fuel fuel s.length s le_rfl h le_rfl

/-- Unfolding `strip` at a match: drop it and resume after it. -/
theorem strip_cons_some {c : Char} {cs : List Char} {n : Nat}
    (hm : matchLen (c :: cs) = some n) :
    strip (c :: cs) = strip ((c :: cs).drop n) := by
  have hn := matchLen_pos hm
  show stripFuel (c :: cs).length (c :: cs) = _
  simp only [List.length_cons, stripFuel, hm]
  apply stripFuel_eq
  simp [List.length_drop]
  omega

/-- Unfolding `strip` with no match at the head: keep the character. -/
theorem strip_cons_none {c : Char} {cs : List Char}
    (hm : matchLen (c :: cs) = none) :
    strip (c :: cs) = c :: strip cs := by
  show stripFuel (c :: cs).length (c :: cs) = _
  simp only [List.length_cons, stripFuel, hm]
  rfl

/-- The segment scanner on the empty string, any fuel. -/
theorem removedSegsFuel_nil (fuel : Nat) : removedSegsFuel fuel [] = [] := by
  cases fuel <;> rfl

/-- The segment scanner is fuel-independent once the fuel covers the
length. -/
theorem removedSegsFuel_congr :
    ∀ (k fuel fuel' : Nat) (s : List Char), fuel ≤ k → s.length ≤ fuel → s.length ≤ fuel' →
      removedSegsFuel fuel s = removedSegsFuel fuel' s := by
  intro k
  induction k with
  | zero =>
    intro fuel fuel' s hk hf _
    have hs : s.length = 0 := by omega
    rw [List.length_eq_zero] at hs
    subst hs
    rw [removedSegsFuel_nil, removedSegsFuel_nil]
  | succ k ih =>
    intro fuel fuel' s hk hf hf'
    match s with
    | [] => rw [removedSegsFuel_nil, removedSegsFuel_nil]
    | c :: cs =>
      have hlen : cs.length + 1 ≤ fuel := by simpa using hf
      have hlen' : cs.length + 1 ≤ fuel' := by simpa using hf'
      obtain ⟨f, rfl⟩ : ∃ f, fuel = f + 1 := ⟨fuel - 1, by omega⟩
      obtain ⟨f', rfl⟩ : ∃ f', fuel' = f' + 1 := ⟨fuel' - 1, by omega⟩
      simp only [removedSegsFuel]
      cases hm : matchLen (c :: cs) with
      | some n =>
        have hn := matchLen_pos hm
        dsimp only
        congr 2
        apply ih
        · omega
        · simp [List.length_drop]
          omega
        · simp [List.length_drop]
          omega
      | none =>
        dsimp only
        congr 1
        apply ih <;> omega

/-- Any sufficient fuel computes `removedSegments`. -/
theorem removedSegsFuel_eq {fuel : Nat} {s : List Char} (h : s.length ≤ fuel) :
    removedSegsFuel fuel s = removedSegments s :=
  removedSegsFuel_congr fuel fuel s.length s le_rfl h le_rfl

/-- Unfolding `removedSegments` at a match. -/
theorem removedSegments_cons_some {c : Char} {cs : List Char} {n : Nat}
    (hm : matchLen (c :: cs) = some n) :
    removedSegments (c :: cs) =
      (0, n) :: (removedSegments ((c :: cs).drop n)).map (fun p => (p.1 + n, p.2)) := by
  have hn := matchLen_pos hm
  show removedSegsFuel (c :: cs).length (c :: cs) = _
  simp only [List.length_cons, removedSegsFuel, hm]
  congr 2
  apply removedSegsFuel_eq
  simp [List.length_drop]
  omega

/-- Unfolding `removedSegments` with no match at the head. -/
theorem removedSegments_cons_none {c : Char} {cs : List Char}
    (hm : matchLen (c :: cs) = none) :
    removedSegments (c :: cs) = (removedSegments cs).map (fun p => (p.1 + 1, p.2)) := by
  show removedSegsFuel (c :: cs).length (c :: cs) = _
  simp only [List.length_cons, removedSegsFuel, hm]
  rfl

/-- Erasing segments all shifted by one past a kept head character. -/
theorem eraseSegs_shift_one (c : Char) (cs : List Char) :
    ∀ (R : List (Nat × Nat)),
      eraseSegs (c :: cs) (R.map (fun p => (p.1 + 1, p.2))) = c :: eraseSegs cs R := by
  intro R
  match R with
  | [] => simp [eraseSegs]
  | (st, len) :: rest =>
    simp only [List.map_cons, eraseSegs]
    have hidx : st + 1 + len = (st + len) + 1 := by omega
    rw [hidx, List.take_succ_cons, List.drop_succ_cons, List.map_map]
    have hmaps :
        rest.map ((fun p => (p.1 - (st + len + 1), p.2)) ∘ (fun p => (p.1 + 1, p.2))) =
          rest.map (fun p => (p.1 - (st + len), p.2)) := by
      apply List.map_congr_left
      intro p _
      simp only [Function.comp]
      congr 1
      omega
    rw [hmaps]
    simp

/-- Erasing a head segment `(0, n)` with the rest shifted by `n`. -/
theorem eraseSegs_head (n : Nat) (s : List Char) :
    ∀ (R : List (Nat × Nat)),
      eraseSegs s ((0, n) :: R.map (fun p => (p.1 + n, p.2))) = eraseSegs (s.drop n) R := by
  intro R
  simp only [eraseSegs, List.take_zero, Nat.zero_add, List.nil_append, List.map_map]
  have hmaps : R.map ((fun p => (p.1 - n, p.2)) ∘ fun p => (p.1 + n, p.2)) = R.map id := by
    apply List.map_congr_left
    intro p _
    obtain ⟨a, b⟩ := p
    simp only [Function.comp, id]
    congr 1
    omega
  rw [hmaps, List.map_id]

/-- The replace scan equals erasure of its removed segments. -/
theorem strip_eq_eraseSegs :
    ∀ (k : Nat) (s : List Char), s.length ≤ k →
      strip s = eraseSegs s (removedSegments s) := by
  intro k
  induction k with
  | zero =>
    intro s hs
    have h0 : s.length = 0 := by omega
    rw [List.length_eq_zero] at h0
    subst h0
    rw [show removedSegments ([] : List Char) = [] from rfl]
    simp [eraseSegs]
    rfl
  | succ k ih =>
    intro s hs
    match s with
    | [] =>
      rw [show removedSegments ([] : List Char) = [] from rfl]
      simp [eraseSegs]
      rfl
    | c :: cs =>
      cases hm : matchLen (c :: cs) with
      | some n =>
        have hn := matchLen_pos hm
        rw [strip_cons_some hm, removedSegments_cons_some hm, eraseSegs_head]
        apply ih
        simp at hs
        simp [List.length_drop]
        omega
      | none =>
        rw [strip_cons_none hm, removedSegments_cons_none hm, eraseSegs_shift_one]
        congr 1
        apply ih
        simp at hs
        omega

/-- A string with no match anywhere is left unchanged by the scan. -/
theorem strip_of_no_match :
    ∀ (k : Nat) (s : List Char), s.length ≤ k → hasMatch s = false → strip s = s := by
  intro k
  induction k with
  | zero =>
    intro s hs _
    have h0 : s.length = 0 := by omega
    rw [List.length_eq_zero] at h0
    subst h0
    rfl
  | succ k ih =>
    intro s hs hnm
    match s with
    | [] => rfl
    | c :: cs =>
      unfold hasMatch at hnm
      simp only [Bool.or_eq_false_iff] at hnm
      obtain ⟨hm', hrest⟩ := hnm
      have hm : matchLen (c :: cs) = none := by
        cases hmm : matchLen (c :: cs) with
        | some m => rw [hmm] at hm'; simp at hm'
        | none => rfl
      rw [strip_cons_none hm]
      congr 1
      apply ih
      · simp at hs
        omega
      · exact hrest

/-- The text-node callback always computes the full replace: when the
test is false the replace would be the identity anyway. -/
theorem transformText_eq_strip (v : List Char) : transformText v = strip v := by
  unfold transformText
  by_cases h : hasMatch v
  · rw [if_pos h]
  · rw [if_neg h]
    rw [strip_of_no_match v.length v le_rfl (by simpa using h)]

/-- Every removed segment is a genuine occurrence of the control-flag
pattern in the original string. -/
theorem removedSegments_are_matches :
    ∀ (k : Nat) (s : List Char), s.length ≤ k →
      ∀ p ∈ removedSegments s, matchLen (s.drop p.1) = some p.2 := by
  intro k
  induction k with
  | zero =>
    intro s hs p hp
    have h0 : s.length = 0 := by omega
    rw [List.length_eq_zero] at h0
    subst h0
    simp [removedSegments, removedSegsFuel] at hp
  | succ k ih =>
    intro s hs p hp
    match s with
    | [] => simp [removedSegments, removedSegsFuel] at hp
    | c :: cs =>
      cases hm : matchLen (c :: cs) with
      | some n =>
        have hn := matchLen_pos hm
        rw [removedSegments_cons_some hm] at hp
        rcases List.mem_cons.mp hp with hhead | htail
        · subst hhead
          simpa using hm
        · obtain ⟨q, hq, rfl⟩ := List.mem_map.mp htail
          have hdd : (c :: cs).drop (q.1 + n) = ((c :: cs).drop n).drop q.1 := by
            rw [List.drop_drop]
            congr 1
            omega
          rw [hdd]
          exact ih ((c :: cs).drop n) (by simp [List.length_drop] at hs ⊢; omega) q hq
      | none =>
        rw [removedSegments_cons_none hm] at hp
        obtain ⟨q, hq, rfl⟩ := List.mem_map.mp hp
        rw [List.drop_succ_cons]
        exact ih cs (by simp at hs; omega) q hq

/-- Every occurrence of the control-flag pattern overlaps some removed
segment. -/
theorem matches_overlap_removed :
    ∀ (k : Nat) (s : List Char), s.length ≤ k →
      ∀ (i n : Nat), matchLen (s.drop i) = some n →
        ∃ p ∈ removedSegments s, p.1 < i + n ∧ i < p.1 + p.2 := by
  intro k
  induction k with
  | zero =>
    intro s hs i n hocc
    have h0 : s.length = 0 := by omega
    rw [List.length_eq_zero] at h0
    subst h0
    simp only [List.drop_nil] at hocc
    simp [matchLen] at hocc
  | succ k ih =>
    intro s hs i n hocc
    match s with
    | [] =>
      simp only [List.drop_nil] at hocc
      simp [matchLen] at hocc
    | c :: cs =>
      have hnpos : 0 < n := matchLen_pos hocc
      cases hm : matchLen (c :: cs) with
      | some m =>
        have hmpos := matchLen_pos hm
        rw [removedSegments_cons_some hm]
        by_cases hi : i < m
        · exact ⟨(0, m), List.mem_cons_self _ _, by omega, by omega⟩
        · have him : m ≤ i := by omega
          have hdd : (c :: cs).drop i = ((c :: cs).drop m).drop (i - m) := by
            rw [List.drop_drop]
            congr 1
            omega
          rw [hdd] at hocc
          obtain ⟨q, hq, hq1, hq2⟩ :=
            ih ((c :: cs).drop m) (by simp [List.length_drop] at hs ⊢; omega) (i - m) n hocc
          refine ⟨(q.1 + m, q.2), List.mem_cons_of_mem _ (List.mem_map.mpr ⟨q, hq, rfl⟩), ?_, ?_⟩
          · omega
          · omega
      | none =>
        match i with
        | 0 =>
          rw [List.drop_zero] at hocc
          rw [hocc] at hm
          exact absurd hm (by simp)
        | j + 1 =>
          rw [removedSegments_cons_none hm]
          rw [List.drop_succ_cons] at hocc
          obtain ⟨q, hq, hq1, hq2⟩ := ih cs (by simp at hs; omega) j n hocc
          refine ⟨(q.1 + 1, q.2), List.mem_map.mpr ⟨q, hq, rfl⟩, ?_, ?_⟩
          · omega
          · omega

/-- The removed segments are sorted and pairwise disjoint: each ends at or
before the start of the next. -/
theorem removedSegments_chain :
    ∀ (k : Nat) (s : List Char), s.length ≤ k →
      (removedSegments s).Chain' (fun p q => p.1 + p.2 ≤ q.1) := by
  intro k
  induction k with
  | zero =>
    intro s hs
    have h0 : s.length = 0 := by omega
    rw [List.length_eq_zero] at h0
    subst h0
    simp [removedSegments, removedSegsFuel]
  | succ k ih =>
    intro s hs
    match s with
    | [] => simp [removedSegments, removedSegsFuel]
    | c :: cs =>
      cases hm : matchLen (c :: cs) with
      | some n =>
        have hn := matchLen_pos hm
        rw [removedSegments_cons_some hm]
        have hchain := ih ((c :: cs).drop n) (by simp [List.length_drop] at hs ⊢; omega)
        rw [List.chain'_cons']
        constructor
        · intro q hq
          match hR : removedSegments ((c :: cs).drop n) with
          | [] => rw [hR] at hq; simp at hq
          | r :: rs =>
            rw [hR] at hq
            simp only [List.map_cons, List.head?_cons, Option.mem_def, Option.some.injEq] at hq
            subst hq
            simp
        · rw [List.chain'_map]
          apply List.Chain'.imp ?_ hchain
          intro p q hpq
          simp only
          omega
      | none =>
        rw [removedSegments_cons_none hm]
        rw [List.chain'_map]
        apply List.Chain'.imp ?_ (ih cs (by simp at hs; omega))
        intro p q hpq
        simp only
        omega

/-- The transformer rewrites exactly the text values, in order: below the
root, the text values of the transformed tree are the original values
mapped through the per-node transform. -/
theorem textValues_strip_aux :
    ∀ (k : Nat),
      (∀ (t : MdNode), sizeOf t ≤ k →
        textValues (remarkStripNode true t) = (textValues t).map transformText) ∧
      (∀ (cs : List MdNode), sizeOf cs ≤ k →
        textValuesList (remarkStripList cs) = (textValuesList cs).map transformText) := by
  intro k
  induction k with
  | zero =>
    constructor
    · intro t h
      cases t <;> simp at h
    · intro cs h
      cases cs <;> simp at h
  | succ k ih =>
    constructor
    · intro t h
      match t with
      | .text v =>
        simp [remarkStripNode, textValues]
      | .node knd cs =>
        show textValuesList (remarkStripList cs) = _
        have hsz : sizeOf cs ≤ k := by
          simp at h
          omega
        exact ih.2 cs hsz
    · intro cs h
      match cs with
      | [] => rfl
      | c :: rest =>
        show textValues (remarkStripNode true c) ++ textValuesList (remarkStripList rest) = _
        have hszc : sizeOf c ≤ k := by
          simp at h
          omega
        have hszr : sizeOf rest ≤ k := by
          simp at h
          omega
        rw [ih.1 c hszc, ih.2 rest hszr]
        show _ = (textValues c ++ textValuesList rest).map transformText
        rw [List.map_append]

/-- Claim C8 (amended): the strip pass rewrites every text-node value
below the root through one left-to-right scan of
`value.replace(/::[\w-]+::/g, '')`; that scan removes a sorted,
pairwise-disjoint list of genuine occurrences of the pattern, and every
occurrence of the pattern in the original value overlaps a removed
segment — but the resulting value can still contain such a token,
reassembled across a removed segment. -/
theorem C8_strip_pass_scan_accounting :
    ∀ (kind : String) (children : List MdNode) (v : List Char),
      textValues (remarkStripControlFlags (.node kind children)) =
        (textValues (.node kind children)).map transformText ∧
      transformText v = eraseSegs v (removedSegments v) ∧
      (removedSegments v).Chain' (fun p q => p.1 + p.2 ≤ q.1) ∧
      (∀ p ∈ removedSegments v, matchLen (v.drop p.1) = some p.2) ∧
      (∀ i n, matchLen (v.drop i) = some n →
        ∃ p ∈ removedSegments v, p.1 < i + n ∧ i < p.1 + p.2) := by
  intro kind children v
  refine ⟨?_, ?_, ?_, ?_, ?_⟩
  · show textValuesList (remarkStripList children) = (textValuesList children).map transformText
    exact (textValues_strip_aux (sizeOf children)).2 children le_rfl
  · rw [transformText_eq_strip]
    exact strip_eq_eraseSegs v.length v le_rfl
  · exact removedSegments_chain v.length v le_rfl
  · exact removedSegments_are_matches v.length v le_rfl
  · exact matches_overlap_removed v.length v le_rfl

/-- Claim C8 counterexample: stripping the text node `"::::x::y::"`
removes only the scan's match `"::x::"`, and the surviving characters
reassemble into `"::y::"` — the resulting tree still has a text node
containing a token matching `::[\w-]+::`. -/
theorem C8_counterexample :
    textValues (remarkStripControlFlags
        (.node "root" [.text (String.data "::::x::y::")])) =
      [String.data "::y::"] ∧
    hasMatch (String.data "::y::") = true := by
  constructor
  · rfl
  · decide

/-- Witness for C8 (amended): in `"::::x::y::"` the pattern occurs at
index 5 with length 5 (`"::y::"`), and that occurrence overlaps the
removed segment. -/
theorem C8_witness :
    ∃ p ∈ removedSegments (String.data "::::x::y::"), p.1 < 5 + 5 ∧ 5 < p.1 + p.2 :=
  (C8_strip_pass_scan_accounting "root" [] (String.data "::::x::y::")).2.2.2.2 5 5 (by decide)

/-- Membership in a decorated sibling list. -/
theorem mem_decorateList :
    ∀ (rs : List RawNode) (pp : String) (d : Nat) (t : KTree),
      t ∈ decorateList pp d rs ↔ ∃ r ∈ rs, t = decorate pp d r := by
  intro rs pp d t
  induction rs with
  | nil => simp [decorateList]
  | cons r rest ih =>
    show t ∈ decorate pp d r :: decorateList pp d rest ↔ _
    rw [List.mem_cons, ih]
    constructor
    · rintro (rfl | ⟨r', hr', rfl⟩)
      · exact ⟨r, List.mem_cons_self _ _, rfl⟩
      · exact ⟨r', List.mem_cons_of_mem _ hr', rfl⟩
    · rintro ⟨r', hr', rfl⟩
      rcases List.mem_cons.mp hr' with rfl | hr''
      · exact Or.inl rfl
      · exact Or.inr ⟨r', hr'', rfl⟩

/-- Membership in the node collection of a forest. -/
theorem mem_allNodesList :
    ∀ (ts : List KTree) (n : KTree),
      n ∈ allNodesList ts ↔ ∃ t ∈ ts, n ∈ allNodes t := by
  intro ts n
  induction ts with
  | nil => simp [allNodesList]
  | cons t rest ih =>
    show n ∈ allNodes t ++ allNodesList rest ↔ _
    rw [List.mem_append, ih]
    constructor
    · rintro (h | ⟨t', ht', hn⟩)
      · exact ⟨t, List.mem_cons_self _ _, h⟩
      · exact ⟨t', List.mem_cons_of_mem _ ht', hn⟩
    · rintro ⟨t', ht', hn⟩
      rcases List.mem_cons.mp ht' with rfl | ht''
      · exact Or.inl hn
      · exact Or.inr ⟨t', ht'', hn⟩

/-- Every node of a decorated tree satisfies the strand-count
invariant. -/
theorem decorate_nodes_count_ok :
    ∀ (k : Nat) (r : RawNode), sizeOf r ≤ k → ∀ (pp : String) (d : Nat),
      ∀ n ∈ allNodes (decorate pp d r), nodeCountOK n := by
  intro k
  induction k with
  | zero =>
    intro r h
    cases r
    simp at h
  | succ k ih =>
    intro r hr pp d n hn
    match r with
    | .mk nm ty cs =>
      rw [show decorate pp d (.mk nm ty cs) =
            KTree.mk nm (if pp = "" then nm else pp ++ "/" ++ nm) ty
              (decorateList (if pp = "" then nm else pp ++ "/" ++ nm) (d + 1) cs)
              (countOf ty nm
                (decorateList (if pp = "" then nm else pp ++ "/" ++ nm) (d + 1) cs))
              (levelOf d ty nm) from rfl] at hn
      rw [show allNodes (KTree.mk nm (if pp = "" then nm else pp ++ "/" ++ nm) ty
              (decorateList (if pp = "" then nm else pp ++ "/" ++ nm) (d + 1) cs)
              (countOf ty nm
                (decorateList (if pp = "" then nm else pp ++ "/" ++ nm) (d + 1) cs))
              (levelOf d ty nm)) =
            KTree.mk nm (if pp = "" then nm else pp ++ "/" ++ nm) ty
              (decorateList (if pp = "" then nm else pp ++ "/" ++ nm) (d + 1) cs)
              (countOf ty nm
                (decorateList (if pp = "" then nm else pp ++ "/" ++ nm) (d + 1) cs))
              (levelOf d ty nm) ::
              allNodesList (decorateList (if pp = "" then nm else pp ++ "/" ++ nm) (d + 1) cs)
          from rfl] at hn
      rcases List.mem_cons.mp hn with rfl | htail
      · constructor
        · intro hdir
          have hty : ty = .dir := by simpa [KTree.type] using hdir
          subst hty
          simp [KTree.strandCount, KTree.children, countOf]
        · intro hfile
          have hty : ty = .file := by simpa [KTree.type] using hfile
          subst hty
          simp [KTree.strandCount, KTree.name, countOf]
      · obtain ⟨t, ht, hnt⟩ := (mem_allNodesList _ n).mp htail
        obtain ⟨c, hc, rfl⟩ := (mem_decorateList _ _ _ t).mp ht
        have hszc : sizeOf c ≤ k := by
          have h1 := List.sizeOf_lt_of_mem hc
          simp at hr
          omega
        exact ih c hszc _ _ n hnt

/-- Claim C1: in every tree produced by buildKnowledgeTree, every node of
type 'dir' has strandCount equal to the sum of its children's
strandCounts, and every node of type 'file' has strandCount 0 or 1, with
1 exactly when its name has a markdown extension. -/
theorem C1_strand_count_invariant :
    ∀ (items : List GitTreeItem), ∀ t ∈ buildKnowledgeTree items, ∀ n ∈ allNodes t,
      nodeCountOK n := by
  intro items t ht n hn
  obtain ⟨r, _, rfl⟩ := (mem_decorateList (buildRaw items) "" 1 t).mp ht
  exact decorate_nodes_count_ok (sizeOf r) r le_rfl "" 1 n hn

/-- Witness for C1: the tree built from the single item
`weaves/a/one.md` and its root node. -/
theorem C1_witness :
    nodeCountOK (KTree.mk "weaves" "weaves" .dir
      [KTree.mk "a" "weaves/a" .dir
        [KTree.mk "one.md" "weaves/a/one.md" .file [] 1 .strand] 1 .loom] 1 .weave) :=
  C1_strand_count_invariant [{ path := "weaves/a/one.md", type := .blob }]
    (KTree.mk "weaves" "weaves" .dir
      [KTree.mk "a" "weaves/a" .dir
        [KTree.mk "one.md" "weaves/a/one.md" .file [] 1 .strand] 1 .loom] 1 .weave)
    (List.Mem.head _)
    (KTree.mk "weaves" "weaves" .dir
      [KTree.mk "a" "weaves/a" .dir
        [KTree.mk "one.md" "weaves/a/one.md" .file [] 1 .strand] 1 .loom] 1 .weave)
    (List.Mem.head _)
